import Mathlib

/-!
# Shallow embedding of the SuRF Bloom filter (src/bloom/bloom.hpp)

Bytes are modelled as natural numbers (values `0..255` in well-formed
buffers); buffers (`std::string` used as a byte buffer) are `List Nat`.
32-bit unsigned arithmetic is modelled as `Nat` arithmetic reduced
`% 4294967296` at every operation that the C++ performs on `uint32_t`.
Fallible memory accesses in `KeyMayMatch` are modelled with
`List.getElem?`, so the query returns `Option Bool`; `none` marks the
out-of-bounds branch that would be undefined behaviour in C++.
-/

/-- `DecodeFixed32`: little-endian load of four bytes (the `memcpy` into a
`uint32_t` on a little-endian platform). -/
def DecodeFixed32 (a b c d : Nat) : Nat :=
  a + b * 256 + c * 65536 + d * 16777216

/-- The body of `Hash` after the seed mix: the 4-byte rounds
(`h += w; h *= m; h ^= h >> 16`) followed by the 0–3 byte tail with its
fall-through additions and the final `h *= m; h ^= h >> 24`.  The first
argument is the multiplier constant `m` of the source. -/
def hashBody (m : Nat) : List Nat → Nat → Nat
  | a :: b :: c :: d :: rest, h =>
      let w := DecodeFixed32 a b c d
      let h1 := (h + w) % 4294967296
      let h2 := (h1 * m) % 4294967296
      hashBody m rest (h2 ^^^ (h2 >>> 16))
  | [a, b, c], h =>
      let h1 := (h + c * 65536) % 4294967296
      let h2 := (h1 + b * 256) % 4294967296
      let h3 := (h2 + a) % 4294967296
      let h4 := (h3 * m) % 4294967296
      h4 ^^^ (h4 >>> 24)
  | [a, b], h =>
      let h1 := (h + b * 256) % 4294967296
      let h2 := (h1 + a) % 4294967296
      let h3 := (h2 * m) % 4294967296
      h3 ^^^ (h3 >>> 24)
  | [a], h =>
      let h1 := (h + a) % 4294967296
      let h2 := (h1 * m) % 4294967296
      h2 ^^^ (h2 >>> 24)
  | [], h => h

/-- `Hash(data, n, seed)` with `n = data.length` (every call site passes the
byte count of `data`).  `m = 0xc6a4a793`; the seed mix
`h = seed ^ (n * m)` is truncated to 32 bits on assignment. -/
def Hash (data : List Nat) (seed : Nat) : Nat :=
  hashBody 0xc6a4a793 data ((seed ^^^ (data.length * 0xc6a4a793)) % 4294967296)

/-- The eight bytes of a `uint64_t` in memory order on a little-endian
platform, as read by `Hash((const char*)(&key), sizeof(uint64_t), seed)`. -/
def u64Bytes (x : Nat) : List Nat :=
  [x % 256, x / 256 % 256, x / 65536 % 256, x / 16777216 % 256,
   x / 4294967296 % 256, x / 1099511627776 % 256,
   x / 281474976710656 % 256, x / 72057594037927936 % 256]

/-- A key is either a byte string (`std::string`) or a 64-bit integer
(`uint64_t`), matching the two overloads of `BloomHash`, `CreateFilter`
and `KeyMayMatch`. -/
inductive Key where
  | str (bytes : List Nat) : Key
  | u64 (value : Nat) : Key
deriving DecidableEq

/-- The two `BloomHash` overloads: seed `0xbc9f1d34` over the key's bytes. -/
def BloomHash : Key → Nat
  | .str s => Hash s 0xbc9f1d34
  | .u64 x => Hash (u64Bytes x) 0xbc9f1d34

/-- The second hash of the double-hashing scheme:
`delta = (h >> 17) | (h << 15)` on `uint32_t` (rotate right by 17). -/
def bloomDelta (h : Nat) : Nat :=
  (h >>> 17) ||| ((h <<< 15) % 4294967296)

/-- The `BloomFilter` class state: `bits_per_key_` and the derived probe
count `k_` (both `size_t`). -/
structure BloomFilter where
  bits_per_key_ : Nat
  k_ : Nat
deriving DecidableEq

/-- The constructor `BloomFilter(int bits_per_key)`:
`k_ = (size_t)(bits_per_key * 0.69)` then clamped to `[1, 30]`.
For every `bits_per_key` in the `int` range the double product
`bits_per_key * 0.69` rounds to within `1.5e-7` of the rational
`bits_per_key * 69/100`, whose distance to the next integer below or
above is `0` or at least `1/100`; when it is `0` the product rounds to
that integer exactly (the error is below half an ulp), so truncation of
the double equals `bits_per_key * 69 / 100` in exact integer arithmetic. -/
def mkBloomFilter (bits_per_key : Nat) : BloomFilter :=
  let k0 := bits_per_key * 69 / 100
  let k1 := if k0 < 1 then 1 else k0
  let k2 := if k1 > 30 then 30 else k1
  ⟨bits_per_key, k2⟩

/-- `array[idx] |= (1 << b)` on a byte buffer (no-op when `idx` is out of
range, which never happens in `CreateFilter`; see `bloomAddLoop_bitSet`). -/
def setBitInArray (buf : List Nat) (idx : Nat) (b : Nat) : List Nat :=
  buf.set idx (buf.getD idx 0 ||| (1 <<< b))

/-- The inner probe loop of `CreateFilter` for one key:
`for (j = 0; j < k_; j++) { bitpos = h % bits; array[bitpos/8] |= 1 << (bitpos%8); h += delta; }`
with `array` based at offset `init_size` of the destination buffer and
`h += delta` wrapping modulo `2^32`. -/
def bloomAddLoop (init_size bits : Nat) : Nat → Nat → Nat → List Nat → List Nat
  | 0, _, _, buf => buf
  | j + 1, h, delta, buf =>
      let bitpos := h % bits
      bloomAddLoop init_size bits j ((h + delta) % 4294967296) delta
        (setBitInArray buf (init_size + bitpos / 8) (bitpos % 8))

/-- `CreateFilter(keys, n, dst)`: size the bit array from `n` and
`bits_per_key_` with the 64-bit floor, append `bytes` zero bytes and the
trailing probe-count byte `(char)k_`, then set the probe bits of the first
`n` keys (the C++ reads `keys[0..n)`). -/
def BloomFilter.CreateFilter (self : BloomFilter) (keys : List Key) (n : Nat)
    (dst : List Nat) : List Nat :=
  let bits0 := n * self.bits_per_key_
  let bits1 := if bits0 < 64 then 64 else bits0
  let bytes := (bits1 + 7) / 8
  let bits := bytes * 8
  let init_size := dst.length
  let buf := dst ++ List.replicate bytes 0 ++ [self.k_]
  (keys.take n).foldl
    (fun acc key =>
      let h := BloomHash key
      bloomAddLoop init_size bits self.k_ h (bloomDelta h) acc)
    buf

/-- Reading the trailing byte `array[len-1]` into `const size_t k`:
`array` is `const char*`, so a stored byte `128..255` is a negative
`char` and converts to `size_t` as `2^64 - 256 + byte`. -/
def charToSizeT (b : Nat) : Nat :=
  if b < 128 then b else 18446744073709551360 + b

/-- The probe loop of `KeyMayMatch`:
`for (j = 0; j < k; j++) { bitpos = h % bits; if ((array[bitpos/8] & (1 << (bitpos%8))) == 0) return false; h += delta; }`
then `return true`.  The array read uses `getElem?`; `none` is the
out-of-bounds branch (undefined behaviour in the C++). -/
def bloomQueryLoop (bloom_filter : List Nat) (bits : Nat) :
    Nat → Nat → Nat → Option Bool
  | 0, _, _ => some true
  | j + 1, h, delta =>
      let bitpos := h % bits
      match bloom_filter[bitpos / 8]? with
      | none => none
      | some c =>
          if c &&& (1 <<< (bitpos % 8)) = 0 then some false
          else bloomQueryLoop bloom_filter bits j ((h + delta) % 4294967296) delta

/-- `KeyMayMatch(key, bloom_filter)`: reject filters shorter than 2 bytes,
read the embedded probe count from the last byte, treat values above 30 as
a reserved encoding (match everything), otherwise run the probe loop over
`bits = (len - 1) * 8` bits. -/
def BloomFilter.KeyMayMatch (self : BloomFilter) (key : Key)
    (bloom_filter : List Nat) : Option Bool :=
  let len := bloom_filter.length
  if len < 2 then some false
  else
    let bits := (len - 1) * 8
    let k := charToSizeT (bloom_filter.getD (len - 1) 0)
    if k > 30 then some true
    else
      let h := BloomHash key
      bloomQueryLoop bloom_filter bits k h (bloomDelta h)

/-- Bit `p % 8` of byte `p / 8` of the buffer is set (the test the query
loop performs at `bitpos = p`). -/
def bitSet (buf : List Nat) (p : Nat) : Prop :=
  buf.getD (p / 8) 0 &&& (1 <<< (p % 8)) ≠ 0

instance (buf : List Nat) (p : Nat) : Decidable (bitSet buf p) := by
  unfold bitSet; infer_instance

/-- Whether a key is of the byte-string kind. -/
def Key.isStr : Key → Bool
  | .str _ => true
  | .u64 _ => false

/-- A key list is homogeneous when all entries are strings or all are
64-bit integers (the C++ overloads only accept such batches). -/
def homogeneous (keys : List Key) : Prop :=
  (∀ k ∈ keys, k.isStr = true) ∨ (∀ k ∈ keys, k.isStr = false)

instance (keys : List Key) : Decidable (homogeneous keys) := by
  unfold homogeneous; infer_instance

/-! ## Bit-level lemmas -/

theorem and_one_shiftLeft_ne_zero (x b : Nat) :
    x &&& (1 <<< b) ≠ 0 ↔ x.testBit b = true := by
  rw [Nat.one_shiftLeft, Nat.and_two_pow]
  cases h : x.testBit b
  · simp
  · simp [Nat.pos_iff_ne_zero.mp (Nat.two_pow_pos b)]

theorem bitSet_iff_testBit (buf : List Nat) (p : Nat) :
    bitSet buf p ↔ (buf.getD (p / 8) 0).testBit (p % 8) = true :=
  and_one_shiftLeft_ne_zero _ _

/-! ## `setBitInArray` lemmas -/

theorem length_setBitInArray (buf : List Nat) (idx b : Nat) :
    (setBitInArray buf idx b).length = buf.length :=
  List.length_set ..

theorem getD_setBitInArray_ne (buf : List Nat) (idx b i : Nat) (h : idx ≠ i) :
    (setBitInArray buf idx b).getD i 0 = buf.getD i 0 := by
  simp [setBitInArray, List.getD_eq_getElem?_getD, List.getElem?_set_ne h]

theorem getD_setBitInArray_self (buf : List Nat) (idx b : Nat) (h : idx < buf.length) :
    (setBitInArray buf idx b).getD idx 0 = buf.getD idx 0 ||| (1 <<< b) := by
  simp [setBitInArray, List.getD_eq_getElem?_getD, List.getElem?_set_self h,
    List.getElem?_eq_getElem h]

theorem bitSet_setBitInArray (buf : List Nat) (idx b p : Nat) (hidx : idx < buf.length) :
    bitSet (setBitInArray buf idx b) p ↔
      bitSet buf p ∨ (p / 8 = idx ∧ p % 8 = b) := by
  by_cases hpi : p / 8 = idx
  · rw [bitSet_iff_testBit, bitSet_iff_testBit, hpi,
      getD_setBitInArray_self _ _ _ hidx, Nat.testBit_or, Nat.one_shiftLeft,
      Nat.testBit_two_pow]
    rcases h : (buf.getD idx 0).testBit (p % 8) with _ | _ <;>
      simp [h, hpi, eq_comm]
  · rw [bitSet_iff_testBit, bitSet_iff_testBit,
      getD_setBitInArray_ne _ _ _ _ (fun hh => hpi hh.symm)]
    simp [hpi]

theorem bitSet_setBitInArray_of (buf : List Nat) (idx b p : Nat) (h : bitSet buf p) :
    bitSet (setBitInArray buf idx b) p := by
  by_cases hidx : idx < buf.length
  · exact (bitSet_setBitInArray buf idx b p hidx).mpr (Or.inl h)
  · unfold setBitInArray
    rw [List.set_eq_of_length_le (by omega)]
    exact h

/-! ## `bloomAddLoop` lemmas -/

theorem length_bloomAddLoop (init_size bits : Nat) :
    ∀ (k h delta : Nat) (buf : List Nat),
      (bloomAddLoop init_size bits k h delta buf).length = buf.length
  | 0, _, _, _ => rfl
  | k + 1, h, delta, buf => by
      rw [bloomAddLoop, length_bloomAddLoop init_size bits k, length_setBitInArray]

theorem bitSet_bloomAddLoop_of (init_size bits : Nat) :
    ∀ (k h delta : Nat) (buf : List Nat) (p : Nat), bitSet buf p →
      bitSet (bloomAddLoop init_size bits k h delta buf) p
  | 0, _, _, _, _, hp => hp
  | k + 1, h, delta, buf, p, hp => by
      rw [bloomAddLoop]
      exact bitSet_bloomAddLoop_of init_size bits k _ _ _ _
        (bitSet_setBitInArray_of _ _ _ _ hp)

theorem getD_bloomAddLoop_of_ge (init_size bits : Nat) (hb : 0 < bits) (hdvd : 8 ∣ bits) :
    ∀ (k h delta : Nat) (buf : List Nat) (i : Nat), init_size + bits / 8 ≤ i →
      (bloomAddLoop init_size bits k h delta buf).getD i 0 = buf.getD i 0
  | 0, _, _, _, _, _ => rfl
  | k + 1, h, delta, buf, i, hi => by
      have hbp : h % bits < bits := Nat.mod_lt _ hb
      have hdiv : h % bits / 8 < bits / 8 := Nat.div_lt_div_of_lt_of_dvd hdvd hbp
      rw [bloomAddLoop, getD_bloomAddLoop_of_ge init_size bits hb hdvd k _ _ _ _ hi,
        getD_setBitInArray_ne _ _ _ _ (by omega)]

theorem bitSet_bloomAddLoop (init_size bits : Nat) (hb : 0 < bits) (hdvd : 8 ∣ bits) :
    ∀ (k h delta : Nat) (buf : List Nat), h < 4294967296 →
      init_size + bits / 8 ≤ buf.length → ∀ p,
      (bitSet (bloomAddLoop init_size bits k h delta buf) p ↔
        (bitSet buf p ∨
          ∃ j, j < k ∧ p = init_size * 8 + (h + j * delta) % 4294967296 % bits)) := by
  intro k
  induction k with
  | zero =>
    intro h delta buf _ _ p
    rw [bloomAddLoop]
    simp
  | succ n ih =>
    intro h delta buf hh hlen p
    have hbp : h % bits < bits := Nat.mod_lt _ hb
    have hdiv : h % bits / 8 < bits / 8 := Nat.div_lt_div_of_lt_of_dvd hdvd hbp
    have hidx : init_size + h % bits / 8 < buf.length := by omega
    rw [bloomAddLoop,
      ih ((h + delta) % 4294967296) delta _ (Nat.mod_lt _ (by norm_num))
        (by rw [length_setBitInArray]; exact hlen) p,
      bitSet_setBitInArray _ _ _ _ hidx]
    have hshift : ∀ j : Nat, ((h + delta) % 4294967296 + j * delta) % 4294967296 =
        (h + (j + 1) * delta) % 4294967296 := by
      intro j
      rw [Nat.mod_add_mod]
      congr 1
      ring
    constructor
    · rintro ((hbuf | ⟨hdivp, hmodp⟩) | ⟨j, hj, hp⟩)
      · exact Or.inl hbuf
      · refine Or.inr ⟨0, Nat.succ_pos n, ?_⟩
        have h0 : (h + 0 * delta) % 4294967296 = h := by
          simp [Nat.mod_eq_of_lt hh]
        rw [h0]
        generalize hbpv : h % bits = bitpos at hdivp hmodp
        omega
      · refine Or.inr ⟨j + 1, by omega, ?_⟩
        rw [hp, hshift j]
    · rintro (hbuf | ⟨j, hj, hp⟩)
      · exact Or.inl (Or.inl hbuf)
      · rcases j with _ | j
        · refine Or.inl (Or.inr ?_)
          have h0 : (h + 0 * delta) % 4294967296 = h := by
            simp [Nat.mod_eq_of_lt hh]
          rw [h0] at hp
          generalize hbpv : h % bits = bitpos at hp hbp
          omega
        · exact Or.inr ⟨j, by omega, by rw [hp, hshift j]⟩

/-! ## Hash bounds -/

theorem xor_shiftRight_lt (x s : Nat) (hx : x < 4294967296) :
    x ^^^ (x >>> s) < 4294967296 := by
  have h1 : x >>> s ≤ x := by
    rw [Nat.shiftRight_eq_div_pow]
    exact Nat.div_le_self _ _
  have h2 : (4294967296 : Nat) = 2 ^ 32 := by norm_num
  rw [h2] at hx ⊢
  exact Nat.xor_lt_two_pow hx (lt_of_le_of_lt h1 hx)

theorem hashBody_lt (m : Nat) :
    ∀ (l : List Nat) (h : Nat), h < 4294967296 → hashBody m l h < 4294967296
  | a :: b :: c :: d :: rest, h, _ => by
      rw [hashBody]
      exact hashBody_lt m rest _ (xor_shiftRight_lt _ _ (Nat.mod_lt _ (by norm_num)))
  | [a, b, c], h, _ => by
      rw [hashBody]
      exact xor_shiftRight_lt _ _ (Nat.mod_lt _ (by norm_num))
  | [a, b], h, _ => by
      rw [hashBody]
      exact xor_shiftRight_lt _ _ (Nat.mod_lt _ (by norm_num))
  | [a], h, _ => by
      rw [hashBody]
      exact xor_shiftRight_lt _ _ (Nat.mod_lt _ (by norm_num))
  | [], h, hh => hh

theorem Hash_lt (data : List Nat) (seed : Nat) : Hash data seed < 4294967296 :=
  hashBody_lt _ _ _ (Nat.mod_lt _ (by norm_num))

theorem BloomHash_lt (key : Key) : BloomHash key < 4294967296 := by
  cases key <;> exact Hash_lt _ _

/-! ## `bloomQueryLoop` lemmas -/

theorem bloomQueryLoop_eq_true (f : List Nat) (bits : Nat) :
    ∀ (k h delta : Nat), h < 4294967296 →
      (∀ j, j < k → (h + j * delta) % 4294967296 % bits / 8 < f.length ∧
        bitSet f ((h + j * delta) % 4294967296 % bits)) →
      bloomQueryLoop f bits k h delta = some true
  | 0, h, delta, _, _ => rfl
  | k + 1, h, delta, hh, hall => by
      have h0 : (h + 0 * delta) % 4294967296 = h := by
        simp [Nat.mod_eq_of_lt hh]
      obtain ⟨hidx, hbit⟩ := hall 0 (Nat.succ_pos k)
      rw [h0] at hidx hbit
      rw [bloomQueryLoop]
      simp only [List.getElem?_eq_getElem hidx]
      have hgd : f.getD (h % bits / 8) 0 = f[h % bits / 8] := by
        simp [List.getD_eq_getElem?_getD, List.getElem?_eq_getElem hidx]
      rw [bitSet, hgd] at hbit
      rw [if_neg hbit]
      refine bloomQueryLoop_eq_true f bits k _ delta (Nat.mod_lt _ (by norm_num)) ?_
      intro j hj
      have hsh : ((h + delta) % 4294967296 + j * delta) % 4294967296 =
          (h + (j + 1) * delta) % 4294967296 := by
        rw [Nat.mod_add_mod]
        congr 1
        ring
      rw [hsh]
      exact hall (j + 1) (by omega)

theorem bloomQueryLoop_isSome (f : List Nat) (bits : Nat) (hb : 0 < bits)
    (hf : ∀ bp, bp < bits → bp / 8 < f.length) :
    ∀ (k h delta : Nat), ∃ b, bloomQueryLoop f bits k h delta = some b
  | 0, h, delta => ⟨true, rfl⟩
  | k + 1, h, delta => by
      have hidx : h % bits / 8 < f.length := hf _ (Nat.mod_lt _ hb)
      rw [bloomQueryLoop]
      simp only [List.getElem?_eq_getElem hidx]
      by_cases hc : f[h % bits / 8] &&& (1 <<< (h % bits % 8)) = 0
      · exact ⟨false, by rw [if_pos hc]⟩
      · rw [if_neg hc]
        exact bloomQueryLoop_isSome f bits hb hf k _ delta

/-! ## Fold-over-keys lemmas -/

theorem length_foldl_addKeys (init_size bits kk : Nat) :
    ∀ (keys : List Key) (buf : List Nat),
      (keys.foldl
        (fun acc key => bloomAddLoop init_size bits kk (BloomHash key)
          (bloomDelta (BloomHash key)) acc) buf).length = buf.length
  | [], _ => rfl
  | key :: rest, buf => by
      rw [List.foldl_cons, length_foldl_addKeys init_size bits kk rest,
        length_bloomAddLoop]

theorem bitSet_foldl_addKeys_of (init_size bits kk : Nat) :
    ∀ (keys : List Key) (buf : List Nat) (p : Nat), bitSet buf p →
      bitSet (keys.foldl
        (fun acc key => bloomAddLoop init_size bits kk (BloomHash key)
          (bloomDelta (BloomHash key)) acc) buf) p
  | [], _, _, hp => hp
  | key :: rest, buf, p, hp => by
      rw [List.foldl_cons]
      exact bitSet_foldl_addKeys_of init_size bits kk rest _ _
        (bitSet_bloomAddLoop_of _ _ _ _ _ _ _ hp)

theorem getD_foldl_addKeys_of_ge (init_size bits kk : Nat) (hb : 0 < bits)
    (hdvd : 8 ∣ bits) :
    ∀ (keys : List Key) (buf : List Nat) (i : Nat), init_size + bits / 8 ≤ i →
      (keys.foldl
        (fun acc key => bloomAddLoop init_size bits kk (BloomHash key)
          (bloomDelta (BloomHash key)) acc) buf).getD i 0 = buf.getD i 0
  | [], _, _, _ => rfl
  | key :: rest, buf, i, hi => by
      rw [List.foldl_cons, getD_foldl_addKeys_of_ge init_size bits kk hb hdvd rest _ _ hi,
        getD_bloomAddLoop_of_ge init_size bits hb hdvd _ _ _ _ _ hi]

theorem bitSet_foldl_addKeys_of_mem (init_size bits kk : Nat) (hb : 0 < bits)
    (hdvd : 8 ∣ bits) (keys : List Key) (buf : List Nat)
    (hlen : init_size + bits / 8 ≤ buf.length) (key : Key) (hmem : key ∈ keys)
    (j : Nat) (hj : j < kk) :
    bitSet (keys.foldl
        (fun acc key => bloomAddLoop init_size bits kk (BloomHash key)
          (bloomDelta (BloomHash key)) acc) buf)
      (init_size * 8 +
        (BloomHash key + j * bloomDelta (BloomHash key)) % 4294967296 % bits) := by
  obtain ⟨l1, l2, rfl⟩ := List.append_of_mem hmem
  rw [List.foldl_append, List.foldl_cons]
  apply bitSet_foldl_addKeys_of
  rw [bitSet_bloomAddLoop init_size bits hb hdvd kk (BloomHash key)
    (bloomDelta (BloomHash key)) _ (BloomHash_lt key)
    (by rw [length_foldl_addKeys]; exact hlen)]
  exact Or.inr ⟨j, hj, rfl⟩

/-! ## The constructor's probe count -/

theorem mkBloomFilter_k_bounds (b : Nat) :
    1 ≤ (mkBloomFilter b).k_ ∧ (mkBloomFilter b).k_ ≤ 30 := by
  simp only [mkBloomFilter]
  split_ifs <;> omega

/-! ## Querying a freshly built filter -/

theorem keyMayMatch_foldl_built (self : BloomFilter) (kk bytes : Nat) (hk30 : kk ≤ 30)
    (hby : 1 ≤ bytes) (keys : List Key) (key : Key) (hmem : key ∈ keys) :
    self.KeyMayMatch key
      (keys.foldl
        (fun acc key => bloomAddLoop 0 (bytes * 8) kk (BloomHash key)
          (bloomDelta (BloomHash key)) acc)
        (List.replicate bytes 0 ++ [kk])) = some true := by
  have hbits : 0 < bytes * 8 := by omega
  have hdvd : 8 ∣ bytes * 8 := ⟨bytes, Nat.mul_comm bytes 8⟩
  have hdiv8 : bytes * 8 / 8 = bytes := Nat.mul_div_cancel bytes (by norm_num)
  have hlen0 : (List.replicate bytes (0 : Nat) ++ [kk]).length = bytes + 1 := by
    simp
  have hlenF : (keys.foldl
      (fun acc key => bloomAddLoop 0 (bytes * 8) kk (BloomHash key)
        (bloomDelta (BloomHash key)) acc)
      (List.replicate bytes 0 ++ [kk])).length = bytes + 1 := by
    rw [length_foldl_addKeys, hlen0]
  have hlast : (keys.foldl
      (fun acc key => bloomAddLoop 0 (bytes * 8) kk (BloomHash key)
        (bloomDelta (BloomHash key)) acc)
      (List.replicate bytes 0 ++ [kk])).getD bytes 0 = kk := by
    rw [getD_foldl_addKeys_of_ge 0 (bytes * 8) kk hbits hdvd keys _ bytes (by omega)]
    simp [List.getD_eq_getElem?_getD, List.getElem?_append_right]
  simp only [BloomFilter.KeyMayMatch]
  rw [hlenF, Nat.add_sub_cancel, hlast]
  rw [if_neg (by omega)]
  have hct : charToSizeT kk = kk := by
    unfold charToSizeT
    rw [if_pos (by omega)]
  rw [hct, if_neg (by omega)]
  apply bloomQueryLoop_eq_true _ _ kk (BloomHash key) (bloomDelta (BloomHash key))
    (BloomHash_lt key)
  intro j hj
  constructor
  · have : (BloomHash key + j * bloomDelta (BloomHash key)) % 4294967296 % (bytes * 8)
        < bytes * 8 := Nat.mod_lt _ hbits
    have := Nat.div_lt_div_of_lt_of_dvd hdvd this
    rw [hdiv8] at this
    omega
  · have := bitSet_foldl_addKeys_of_mem 0 (bytes * 8) kk hbits hdvd keys
      (List.replicate bytes 0 ++ [kk]) (by rw [hlen0]; omega) key hmem j hj
    simpa using this

/-- C1: for every positive `bits_per_key` policy, every homogeneous key
list, and every key in the list, building a filter from the list into an
initially empty destination buffer and querying that exact serialized
filter for the key returns `true` (no false negatives). -/
theorem createFilter_no_false_negatives (bits_per_key : Nat) (hpos : 0 < bits_per_key)
    (keys : List Key) (hhom : homogeneous keys) (key : Key) (hmem : key ∈ keys) :
    (mkBloomFilter bits_per_key).KeyMayMatch key
      ((mkBloomFilter bits_per_key).CreateFilter keys keys.length []) = some true := by
  have hk := mkBloomFilter_k_bounds bits_per_key
  simp only [BloomFilter.CreateFilter, List.length_nil, List.nil_append, List.take_length]
  refine keyMayMatch_foldl_built _ _ _ hk.2 ?_ keys key hmem
  split_ifs <;> omega

/-- C3: a filter of length at least 2 whose last byte holds a value above
30 makes the query return `true` unconditionally, whatever the bit array
holds (reserved-encoding passthrough; stored bytes `128..255` read back as
negative `char` and convert to a huge `size_t`, also above 30). -/
theorem keyMayMatch_reserved_encoding (self : BloomFilter) (key : Key) (f : List Nat)
    (hlen : 2 ≤ f.length) (hgt : 30 < f.getD (f.length - 1) 0)
    (hbyte : f.getD (f.length - 1) 0 < 256) :
    self.KeyMayMatch key f = some true := by
  have hk : charToSizeT (f.getD (f.length - 1) 0) > 30 := by
    unfold charToSizeT
    split_ifs <;> omega
  simp only [BloomFilter.KeyMayMatch]
  rw [if_neg (by omega), if_pos hk]

/-- C4: a filter byte sequence of length 0 or 1 makes the query return
`false` (malformed input treated as an empty filter, not an error). -/
theorem keyMayMatch_short_filter (self : BloomFilter) (key : Key) (f : List Nat)
    (hlen : f.length < 2) : self.KeyMayMatch key f = some false := by
  simp only [BloomFilter.KeyMayMatch]
  rw [if_pos hlen]

/-- C6: the query result depends only on the key and the filter bytes —
two policy instances with arbitrary (possibly different) parameters always
agree, because `KeyMayMatch` never reads the instance's own
`bits_per_key_` or `k_`. -/
theorem keyMayMatch_policy_independent (p1 p2 : BloomFilter) (key : Key)
    (f : List Nat) : p1.KeyMayMatch key f = p2.KeyMayMatch key f := rfl

/-- C9: a filter of length at least 2 whose last byte is 0 makes the query
return `true` for every key: the probe loop runs zero times and falls
through to the all-probes-set result. -/
theorem keyMayMatch_zero_probes (self : BloomFilter) (key : Key) (f : List Nat)
    (hlen : 2 ≤ f.length) (hzero : f.getD (f.length - 1) 0 = 0) :
    self.KeyMayMatch key f = some true := by
  simp only [BloomFilter.KeyMayMatch]
  rw [if_neg (by omega), hzero]
  rw [show charToSizeT 0 = 0 from rfl, if_neg (by omega)]
  rfl

/-- C10: for a filter of length `len ≥ 2` whose last byte is at most 30,
every bit-array access of the query is in bounds — each index `bitpos/8`
satisfies `bitpos/8 ≤ len - 2` since `bitpos < (len-1)*8` — so the
`Option`-returning embedding never takes its out-of-bounds branch. -/
theorem keyMayMatch_accesses_in_bounds (self : BloomFilter) (key : Key) (f : List Nat)
    (hlen : 2 ≤ f.length) (hle : f.getD (f.length - 1) 0 ≤ 30) :
    ∃ b, self.KeyMayMatch key f = some b := by
  have hct : charToSizeT (f.getD (f.length - 1) 0) = f.getD (f.length - 1) 0 := by
    unfold charToSizeT
    rw [if_pos (by omega)]
  simp only [BloomFilter.KeyMayMatch]
  rw [if_neg (by omega), hct, if_neg (by omega)]
  apply bloomQueryLoop_isSome
  · omega
  · intro bp hbp
    omega

/-- C5: construction appends exactly `ceil(max(n*bits_per_key, 64)/8) + 1`
bytes to the destination buffer (so with `n = 0`, or `n = 1` and a small
`bits_per_key`, an 8-byte bit array plus the trailing probe byte). -/
theorem createFilter_length (self : BloomFilter) (keys : List Key) (n : Nat)
    (dst : List Nat) :
    (self.CreateFilter keys n dst).length =
      dst.length + ((max (n * self.bits_per_key_) 64 + 7) / 8 + 1) := by
  simp only [BloomFilter.CreateFilter]
  rw [length_foldl_addKeys]
  simp only [List.length_append, List.length_replicate, List.length_cons,
    List.length_nil]
  split_ifs <;> omega

/-! ## Construction only writes past the original destination length -/

theorem setBitInArray_append_right (dst t : List Nat) (idx b : Nat)
    (h : dst.length ≤ idx) :
    setBitInArray (dst ++ t) idx b = dst ++ setBitInArray t (idx - dst.length) b := by
  unfold setBitInArray
  rw [List.set_append_right _ _ h]
  congr 2
  rw [List.getD_eq_getElem?_getD, List.getD_eq_getElem?_getD,
    List.getElem?_append_right h]

theorem bloomAddLoop_append (dst : List Nat) (off bits : Nat) :
    ∀ (k h delta : Nat) (t : List Nat),
      bloomAddLoop (dst.length + off) bits k h delta (dst ++ t) =
        dst ++ bloomAddLoop off bits k h delta t
  | 0, _, _, _ => rfl
  | k + 1, h, delta, t => by
      simp only [bloomAddLoop]
      rw [setBitInArray_append_right dst t _ _ (by omega)]
      have hidx : dst.length + off + h % bits / 8 - dst.length = off + h % bits / 8 := by
        omega
      rw [hidx]
      exact bloomAddLoop_append dst off bits k _ _ _

theorem foldl_addKeys_append (dst : List Nat) (off bits kk : Nat) :
    ∀ (keys : List Key) (t : List Nat),
      keys.foldl
        (fun acc key => bloomAddLoop (dst.length + off) bits kk (BloomHash key)
          (bloomDelta (BloomHash key)) acc) (dst ++ t) =
        dst ++ keys.foldl
          (fun acc key => bloomAddLoop off bits kk (BloomHash key)
            (bloomDelta (BloomHash key)) acc) t
  | [], _ => rfl
  | key :: rest, t => by
      rw [List.foldl_cons, List.foldl_cons, bloomAddLoop_append dst off bits,
        foldl_addKeys_append dst off bits kk rest]

/-- C8: construction never truncates or overwrites the bytes already in
the destination buffer — the result is the original buffer followed by a
tail (every write lands at offset `init_size + bitpos/8 ≥ init_size`). -/
theorem createFilter_preserves_dst (self : BloomFilter) (keys : List Key) (n : Nat)
    (dst : List Nat) :
    ∃ tail, self.CreateFilter keys n dst = dst ++ tail := by
  simp only [BloomFilter.CreateFilter]
  rw [List.append_assoc]
  have h := foldl_addKeys_append dst 0
    ((((if n * self.bits_per_key_ < 64 then 64 else n * self.bits_per_key_) + 7) / 8)
      * 8)
    self.k_ (keys.take n)
    (List.replicate
      (((if n * self.bits_per_key_ < 64 then 64 else n * self.bits_per_key_) + 7) / 8)
      0 ++ [self.k_])
  rw [Nat.add_zero] at h
  exact ⟨_, h⟩

/-- C7: during construction, the probe loop for a key with hash
`h0 = BloomHash key` and `delta = (h0 >> 17) | (h0 << 15)` sets exactly
the bits at positions `((h0 + j*delta) mod 2^32) mod bits` (relative to
the array base `init_size`) for `j < num_probes`, with the `h += delta`
steps wrapping in 32-bit arithmetic; all other bits are untouched. -/
theorem createFilter_probe_positions (init_size bits num_probes : Nat) (key : Key)
    (buf : List Nat) (hb : 0 < bits) (hdvd : 8 ∣ bits)
    (hlen : init_size + bits / 8 ≤ buf.length) (p : Nat) :
    bitSet (bloomAddLoop init_size bits num_probes (BloomHash key)
        (bloomDelta (BloomHash key)) buf) p ↔
      (bitSet buf p ∨ ∃ j, j < num_probes ∧
        p = init_size * 8 +
          (BloomHash key + j * bloomDelta (BloomHash key)) % 4294967296 % bits) :=
  bitSet_bloomAddLoop init_size bits hb hdvd num_probes _ _ buf (BloomHash_lt key)
    hlen p

/-! ## The probe-count derivation (C2) -/

/-- C2 counterexample: at `bits_per_key = 42` the code derives
`k_ = ⌊42 * 0.69⌋ = 28`, while `⌊42 * ln 2⌋` clamped to `[1, 30]` is `29`:
the constructor does not implement `floor(bits_per_key * ln 2)`. -/
theorem probe_count_not_ln2_at_42 :
    (mkBloomFilter 42).k_ = 28 ∧
      min (max ⌊(42 : ℝ) * Real.log 2⌋ 1) 30 = 29 := by
  refine ⟨rfl, ?_⟩
  have h1 := Real.log_two_gt_d9
  have h2 := Real.log_two_lt_d9
  have hfl : ⌊(42 : ℝ) * Real.log 2⌋ = 29 := by
    rw [Int.floor_eq_iff]
    constructor
    · push_cast
      nlinarith
    · push_cast
      nlinarith
  rw [hfl]
  decide

/-- C2 amended: the derived probe count equals
`floor(bits_per_key * 69/100)` — the code's decimal approximation `0.69`
of `ln 2` — clamped to the inclusive range `[1, 30]`. -/
theorem probe_count_derivation (bits_per_key : Nat) :
    (mkBloomFilter bits_per_key).k_ =
        min (max (Nat.floor ((bits_per_key * 69 : ℚ) / 100)) 1) 30 ∧
      1 ≤ (mkBloomFilter bits_per_key).k_ ∧ (mkBloomFilter bits_per_key).k_ ≤ 30 := by
  have hcast : ((bits_per_key * 69 : ℚ)) / 100 =
      ((bits_per_key * 69 : ℕ) : ℚ) / ((100 : ℕ) : ℚ) := by
    push_cast
    ring
  have hfl : Nat.floor ((bits_per_key * 69 : ℚ) / 100) = bits_per_key * 69 / 100 := by
    rw [hcast, Nat.floor_div_nat, Nat.floor_natCast]
  rw [hfl]
  simp only [mkBloomFilter]
  split_ifs <;> omega

/-! ## Concrete witnesses -/

/-- Witness for C1 at a concrete homogeneous two-key string batch. -/
theorem createFilter_no_false_negatives_witness :
    0 < 10 ∧ homogeneous [Key.str [97], Key.str [98, 99]] ∧
      Key.str [97] ∈ [Key.str [97], Key.str [98, 99]] ∧
      (mkBloomFilter 10).KeyMayMatch (Key.str [97])
        ((mkBloomFilter 10).CreateFilter [Key.str [97], Key.str [98, 99]]
          ([Key.str [97], Key.str [98, 99]]).length []) = some true :=
  ⟨by decide, by decide, by decide,
    createFilter_no_false_negatives 10 (by decide) _ (by decide) _ (by decide)⟩

/-- Witness for C3: the two-byte filter `[0, 31]` matches any key. -/
theorem keyMayMatch_reserved_encoding_witness :
    2 ≤ ([0, 31] : List Nat).length ∧
      30 < ([0, 31] : List Nat).getD (([0, 31] : List Nat).length - 1) 0 ∧
      ([0, 31] : List Nat).getD (([0, 31] : List Nat).length - 1) 0 < 256 ∧
      (mkBloomFilter 10).KeyMayMatch (Key.u64 5) [0, 31] = some true :=
  ⟨by decide, by decide, by decide,
    keyMayMatch_reserved_encoding (mkBloomFilter 10) (Key.u64 5) [0, 31]
      (by decide) (by decide) (by decide)⟩

/-- Witness for C4: the empty filter rejects any key. -/
theorem keyMayMatch_short_filter_witness :
    ([] : List Nat).length < 2 ∧
      (mkBloomFilter 10).KeyMayMatch (Key.str []) [] = some false :=
  ⟨by decide, keyMayMatch_short_filter _ _ _ (by decide)⟩

/-- Witness for C9: trailing byte 0 over a non-empty bit array matches
any key. -/
theorem keyMayMatch_zero_probes_witness :
    2 ≤ ([7, 0] : List Nat).length ∧
      ([7, 0] : List Nat).getD (([7, 0] : List Nat).length - 1) 0 = 0 ∧
      (mkBloomFilter 10).KeyMayMatch (Key.str [97]) [7, 0] = some true :=
  ⟨by decide, by decide, keyMayMatch_zero_probes _ _ _ (by decide) (by decide)⟩

/-- Witness for C10 on a concrete in-range filter. -/
theorem keyMayMatch_accesses_in_bounds_witness :
    2 ≤ ([255, 2] : List Nat).length ∧
      ([255, 2] : List Nat).getD (([255, 2] : List Nat).length - 1) 0 ≤ 30 ∧
      ∃ b, (mkBloomFilter 10).KeyMayMatch (Key.u64 3) [255, 2] = some b :=
  ⟨by decide, by decide,
    keyMayMatch_accesses_in_bounds _ _ _ (by decide) (by decide)⟩

/-- Witness for C7 on a fresh 64-bit array, two probes, at bit position 5. -/
theorem createFilter_probe_positions_witness :
    (0 < 64 ∧ (8 : Nat) ∣ 64 ∧ 0 + 64 / 8 ≤ (List.replicate 8 (0 : Nat)).length) ∧
      (bitSet (bloomAddLoop 0 64 2 (BloomHash (Key.u64 1))
          (bloomDelta (BloomHash (Key.u64 1))) (List.replicate 8 0)) 5 ↔
        (bitSet (List.replicate 8 0) 5 ∨ ∃ j, j < 2 ∧
          5 = 0 * 8 +
            (BloomHash (Key.u64 1) + j * bloomDelta (BloomHash (Key.u64 1)))
              % 4294967296 % 64)) :=
  ⟨⟨by decide, by decide, by decide⟩,
    createFilter_probe_positions 0 64 2 (Key.u64 1) (List.replicate 8 0)
      (by decide) (by decide) (by decide) 5⟩
